import Mathlib

/-!
Verification of the NanoLog `runtime/Packer.h` pack/unpack codec.

The source is shallowly embedded: char buffers become byte-addressed
memories `Nat → Nat`, machine integers become `Nat`/`Int` with explicit
reductions modulo `2 ^ w` where the C++ performs a conversion, and each
`pack`/`unpack` overload becomes one Lean function.  Floating-point
values are carried as their bit patterns: the codec only ever memcpys
them, so the byte-level model is exact.
-/

set_option maxHeartbeats 1000000

namespace BufferUtils

/-- Byte-addressed memory modelling the char buffers that pack/unpack walk.
Each address holds one byte (values produced by the codec are `< 256`). -/
def ByteMem : Type := Nat → Nat

/-- The all-zero buffer, used for concrete instances. -/
def zeroMem : ByteMem := fun _ => 0

/-- Overwrite `bs.length` bytes of `mem` starting at `pos`: the effect of a
`memcpy` into the buffer cursor. -/
def writeBytes (mem : ByteMem) (pos : Nat) (bs : List Nat) : ByteMem :=
  fun a => if pos ≤ a ∧ a < pos + bs.length then bs.getD (a - pos) 0 else mem a

/-- Read `k` bytes at `pos` as a little-endian natural number: the value that
a `memcpy` of `k` bytes into a zero-initialised integer produces on the
little-endian hosts the codec documents itself as requiring. -/
def readLE (mem : ByteMem) : Nat → Nat → Nat
  | _, 0 => 0
  | pos, k + 1 => mem pos + 256 * readLE mem (pos + 1) k

/-- The `w` little-endian bytes of `v`: the object representation that
`memcpy(*buffer, &val, sizeof(T))` copies out of a `w`-byte integer. -/
def bytesOfNat : Nat → Nat → List Nat
  | 0, _ => []
  | w + 1, v => v % 256 :: bytesOfNat w (v / 256)

/-- The if-chain of the unsigned `pack` (Packer.h:101-118) choosing the
fewest bytes needed to represent `val`. -/
def numBytesU (val : Nat) : Nat :=
  if val < 2 ^ 8 then 1
  else if val < 2 ^ 16 then 2
  else if val < 2 ^ 24 then 3
  else if val < 2 ^ 32 then 4
  else if val < 2 ^ 40 then 5
  else if val < 2 ^ 48 then 6
  else if val < 2 ^ 56 then 7
  else 8

/-- `pack` for an unsigned integral `T` (Packer.h:92-127).  `size` is
`sizeof(T)`.  Exactly as in the source, the entire `size`-byte value is
memcpy'd into the buffer, but the cursor advances only by `numBytes`,
which is also returned as the nibble code. -/
def packUnsigned (size : Nat) (buffer : ByteMem) (pos : Nat) (val : Nat) :
    ByteMem × Nat × Nat :=
  (writeBytes buffer pos (bytesOfNat size val), pos + numBytesU val, numBytesU val)

/-- `pack` for `int32_t` (Packer.h:142-149).  The casts
`static_cast<uint32_t>(val)` and `static_cast<uint32_t>(-val)` are the
reductions modulo `2 ^ 32`. -/
def packI32 (buffer : ByteMem) (pos : Nat) (val : Int) : ByteMem × Nat × Nat :=
  if val ≥ 0 ∨ val ≤ -(2 ^ 24) then
    packUnsigned 4 buffer pos (val % 2 ^ 32).toNat
  else
    let r := packUnsigned 4 buffer pos ((-val) % 2 ^ 32).toNat
    (r.1, r.2.1, 8 + r.2.2)

/-- `pack` for `int64_t` (Packer.h:151-158). -/
def packI64 (buffer : ByteMem) (pos : Nat) (val : Int) : ByteMem × Nat × Nat :=
  if val ≥ 0 ∨ val ≤ -(2 ^ 56) then
    packUnsigned 8 buffer pos (val % 2 ^ 64).toNat
  else
    let r := packUnsigned 8 buffer pos ((-val) % 2 ^ 64).toNat
    (r.1, r.2.1, 8 + r.2.2)

/-- `pack` for `long long int` (Packer.h:162-169); its body is identical to
the `int64_t` overload. -/
def packLL (buffer : ByteMem) (pos : Nat) (val : Int) : ByteMem × Nat × Nat :=
  if val ≥ 0 ∨ val ≤ -(2 ^ 56) then
    packUnsigned 8 buffer pos (val % 2 ^ 64).toNat
  else
    let r := packUnsigned 8 buffer pos ((-val) % 2 ^ 64).toNat
    (r.1, r.2.1, 8 + r.2.2)

/-- Pointer `pack` (Packer.h:205-209): the address is reinterpreted as a
`uint64_t` and packed through the unsigned path. -/
def packPointer (buffer : ByteMem) (pos : Nat) (addr : Nat) :
    ByteMem × Nat × Nat :=
  packUnsigned 8 buffer pos addr

/-- Floating-point `pack` (Packer.h:222-228): the `size = sizeof(T)` bytes of
the bit pattern are copied verbatim and `sizeof(T)` is the nibble code. -/
def packFloating (size : Nat) (buffer : ByteMem) (pos : Nat) (bits : Nat) :
    ByteMem × Nat × Nat :=
  (writeBytes buffer pos (bytesOfNat size bits), pos + size, size)

/-- Value of an `int64_t` whose object representation is the 8 little-endian
bytes of `n < 2 ^ 64`. -/
def sint64 (n : Nat) : Int :=
  if n < 2 ^ 63 then (n : Int) else (n : Int) - 2 ^ 64

/-- `static_cast<T>` to a `w`-byte signed type: reduce modulo `2 ^ (8 w)`
into the symmetric range (two's-complement wraparound, the behaviour of the
targeted compilers). -/
def castSigned (w : Nat) (x : Int) : Int :=
  if x % 2 ^ (8 * w) < 2 ^ (8 * w - 1) then x % 2 ^ (8 * w)
  else x % 2 ^ (8 * w) - 2 ^ (8 * w)

/-- `static_cast<T>` to a `w`-byte unsigned type: reduce modulo `2 ^ (8 w)`. -/
def castUnsigned (w : Nat) (x : Int) : Int := x % 2 ^ (8 * w)

/-- `int64_t` negation with two's-complement wraparound. -/
def neg64 (x : Int) : Int := castSigned 8 (-x)

/-- `unpack` for an integral, non-pointer `T` of width `w = sizeof(T)` and
signedness `sgn` (Packer.h:244-262).  Returns the decoded value (as the
mathematical value of the resulting `T`) and the advanced cursor.  Note
that `packResult == 0` is caught by the `packResult <= 8` branch, so the
`packResult == 0 ? 16` selection in the negation branch below is dead
code, exactly as in the source. -/
def unpackIntegral (w : Nat) (sgn : Bool) (mem : ByteMem) (pos : Nat)
    (packResult : Nat) : Int × Nat :=
  if packResult ≤ 8 then
    let packed := sint64 (readLE mem pos packResult)
    (if sgn then castSigned w packed else castUnsigned w packed,
     pos + packResult)
  else
    let bytes := if packResult = 0 then 16 else Nat.land 0x0f (packResult - 8)
    let packed := sint64 (readLE mem pos bytes)
    (if sgn then castSigned w (neg64 packed) else castUnsigned w (neg64 packed),
     pos + bytes)

/-- Pointer `unpack` (Packer.h:264-268): decode through `unpack<uint64_t>`
and reinterpret the result as an address. -/
def unpackPointer (mem : ByteMem) (pos : Nat) (packNibble : Nat) : Nat × Nat :=
  let r := unpackIntegral 8 false mem pos packNibble
  (r.1.toNat, r.2)

/-- Floating-point `unpack` (Packer.h:270-287).  The result is the bit
pattern assembled from the bytes memcpy'd into `result`; for the
full-width codes the codec itself produces (4 for `float`, 8 for
`double`) this is exactly the stored value's bit pattern.  The
`packNibble == sizeof(float)` test compares against 4 for either
instantiation, and the float read on that branch is returned unconverted
(the claims only reach it at `T = float`, where the conversion to `T` is
the identity). -/
def unpackFloating (mem : ByteMem) (pos : Nat) (packNibble : Nat) :
    Nat × Nat :=
  if packNibble = 4 then (readLE mem pos 4, pos + 4)
  else
    let bytes := if packNibble = 0 then 16 else packNibble
    (readLE mem pos bytes, pos + bytes)

/-- The `TwoNibbles` packed bit-field (Packer.h:74-77): `first` is the low
nibble of the byte, `second` the high nibble, per the targeted compiler's
little-endian bit-field layout. -/
structure TwoNibbles where
  first : Nat
  second : Nat
  deriving DecidableEq, Repr

/-- Byte width a nibble code stands for: 0 encodes 16 bytes, 1-8 encode
themselves, and codes above 8 encode `code - 8` negated bytes. -/
def nibbleWidth (c : Nat) : Nat :=
  if c = 0 then 16 else if c ≤ 8 then c else c - 8

/-- One iteration of the `getSizeOfPackedValues` loop body
(Packer.h:305-315), with every `uint32_t` operation reduced modulo
`2 ^ 32`; the `size -= 8` is the additive-inverse form of the wrapping
subtraction. -/
def stepPair (size : Nat) (nb : TwoNibbles) : Nat :=
  let s1 := (size + (nb.first + nb.second)) % 2 ^ 32
  let s2 := if nb.first = 0 then (s1 + 16) % 2 ^ 32 else s1
  let s3 := if 8 < nb.first then (s2 + (2 ^ 32 - 8)) % 2 ^ 32 else s2
  let s4 := if nb.second = 0 then (s3 + 16) % 2 ^ 32 else s3
  if 8 < nb.second then (s4 + (2 ^ 32 - 8)) % 2 ^ 32 else s4

/-- The `getSizeOfPackedValues` loop over the first `k` packed byte pairs,
ascending from index 0 with `size` starting at 0. -/
def getSizeLoop (nibbles : Nat → TwoNibbles) : Nat → Nat
  | 0 => 0
  | k + 1 => stepPair (getSizeLoop nibbles k) (nibbles k)

/-- `getSizeOfPackedValues` (Packer.h:301-326): total value bytes described
by `numNibbles` nibble codes, two at a time with an odd tail handled
singly, as a `uint32_t`. -/
def getSizeOfPackedValues (nibbles : Nat → TwoNibbles) (numNibbles : Nat) :
    Nat :=
  let size := getSizeLoop nibbles (numNibbles / 2)
  if numNibbles % 2 = 1 then
    let s1 := (size + (nibbles (numNibbles / 2)).first) % 2 ^ 32
    let s2 := if (nibbles (numNibbles / 2)).first = 0 then (s1 + 16) % 2 ^ 32
              else s1
    if 8 < (nibbles (numNibbles / 2)).first then (s2 + (2 ^ 32 - 8)) % 2 ^ 32
    else s2
  else size

/-- The `TwoNibbles` that lives at byte address `a`: low nibble `first`,
high nibble `second`. -/
def twoNibblesAt (mem : ByteMem) (a : Nat) : TwoNibbles :=
  ⟨mem a % 16, mem a / 16 % 16⟩

/-- The `Nibbler` state (Packer.h:332-348).  `nibblePosition` is the byte
address of the current `TwoNibbles`. -/
structure Nibbler where
  nibblePosition : Nat
  onFirstNibble : Bool
  numNibbles : Nat
  currPackedValue : Nat
  endOfValues : Nat
  deriving DecidableEq, Repr

/-- The `Nibbler` constructor (Packer.h:358-368): values start after the
`(numNibbles + 1) / 2` nibble bytes, and `endOfValues` is computed from
the nibble stream by `getSizeOfPackedValues`. -/
def Nibbler.init (mem : ByteMem) (nibbleStart : Nat) (numNibbles : Nat) :
    Nibbler :=
  { nibblePosition := nibbleStart
    onFirstNibble := true
    numNibbles := numNibbles
    currPackedValue := nibbleStart + (numNibbles + 1) / 2
    endOfValues := nibbleStart + (numNibbles + 1) / 2 +
      getSizeOfPackedValues (fun i => twoNibblesAt mem (nibbleStart + i))
        numNibbles }

/-- The supported scalar types of the codec, one per `pack` overload the
generated NanoLog code can instantiate. -/
inductive ValType where
  | u8 | u16 | u32 | u64 | i32 | i64 | ll | ptr | f32 | f64
  deriving DecidableEq, Repr

/-- A typed scalar value.  Unsigned integers and addresses are naturals,
signed integers are mathematical integers, floating-point values are
their bit patterns. -/
inductive TVal where
  | vU8 (v : Nat)
  | vU16 (v : Nat)
  | vU32 (v : Nat)
  | vU64 (v : Nat)
  | vI32 (v : Int)
  | vI64 (v : Int)
  | vLL (v : Int)
  | vPtr (v : Nat)
  | vF32 (bits : Nat)
  | vF64 (bits : Nat)
  deriving DecidableEq, Repr

/-- The type of a typed value. -/
def typeOf : TVal → ValType
  | .vU8 _ => .u8
  | .vU16 _ => .u16
  | .vU32 _ => .u32
  | .vU64 _ => .u64
  | .vI32 _ => .i32
  | .vI64 _ => .i64
  | .vLL _ => .ll
  | .vPtr _ => .ptr
  | .vF32 _ => .f32
  | .vF64 _ => .f64

/-- Representability of a value in its C++ type. -/
def TValValid : TVal → Prop
  | .vU8 v => v < 2 ^ 8
  | .vU16 v => v < 2 ^ 16
  | .vU32 v => v < 2 ^ 32
  | .vU64 v => v < 2 ^ 64
  | .vI32 v => -(2 ^ 31) ≤ v ∧ v < 2 ^ 31
  | .vI64 v => -(2 ^ 63) ≤ v ∧ v < 2 ^ 63
  | .vLL v => -(2 ^ 63) ≤ v ∧ v < 2 ^ 63
  | .vPtr v => v < 2 ^ 64
  | .vF32 bits => bits < 2 ^ 32
  | .vF64 bits => bits < 2 ^ 64

instance (v : TVal) : Decidable (TValValid v) := by
  cases v <;> unfold TValValid <;> infer_instance

/-- Dispatch of `pack` on the value's type, as the generated compression
code performs it. -/
def packOne (mem : ByteMem) (pos : Nat) : TVal → ByteMem × Nat × Nat
  | .vU8 v => packUnsigned 1 mem pos v
  | .vU16 v => packUnsigned 2 mem pos v
  | .vU32 v => packUnsigned 4 mem pos v
  | .vU64 v => packUnsigned 8 mem pos v
  | .vI32 v => packI32 mem pos v
  | .vI64 v => packI64 mem pos v
  | .vLL v => packLL mem pos v
  | .vPtr v => packPointer mem pos v
  | .vF32 bits => packFloating 4 mem pos bits
  | .vF64 bits => packFloating 8 mem pos bits

/-- Dispatch of `unpack<T>` on the expected type, returning the decoded
typed value and the advanced cursor. -/
def unpackOne (τ : ValType) (mem : ByteMem) (pos : Nat) (nibble : Nat) :
    TVal × Nat :=
  match τ with
  | .u8 => let r := unpackIntegral 1 false mem pos nibble; (.vU8 r.1.toNat, r.2)
  | .u16 => let r := unpackIntegral 2 false mem pos nibble; (.vU16 r.1.toNat, r.2)
  | .u32 => let r := unpackIntegral 4 false mem pos nibble; (.vU32 r.1.toNat, r.2)
  | .u64 => let r := unpackIntegral 8 false mem pos nibble; (.vU64 r.1.toNat, r.2)
  | .i32 => let r := unpackIntegral 4 true mem pos nibble; (.vI32 r.1, r.2)
  | .i64 => let r := unpackIntegral 8 true mem pos nibble; (.vI64 r.1, r.2)
  | .ll => let r := unpackIntegral 8 true mem pos nibble; (.vLL r.1, r.2)
  | .ptr => let r := unpackPointer mem pos nibble; (.vPtr r.1, r.2)
  | .f32 => let r := unpackFloating mem pos nibble; (.vF32 r.1, r.2)
  | .f64 => let r := unpackFloating mem pos nibble; (.vF64 r.1, r.2)

/-- `getNext<T>` (Packer.h:378-393): read the active nibble, unpack one
value of the expected type at the value cursor, and advance the nibble
walk.  The debug `assert(currPackedValue < endOfValues)` is not part of
the model. -/
def Nibbler.getNext (st : Nibbler) (mem : ByteMem) (τ : ValType) :
    TVal × Nibbler :=
  let nibble := if st.onFirstNibble then (twoNibblesAt mem st.nibblePosition).first
                else (twoNibblesAt mem st.nibblePosition).second
  let r := unpackOne τ mem st.currPackedValue nibble
  (r.1,
   { st with
      nibblePosition := if !st.onFirstNibble then st.nibblePosition + 1
                        else st.nibblePosition
      onFirstNibble := !st.onFirstNibble
      currPackedValue := r.2 })

/-- Pull one value per expected type from the Nibbler, in order. -/
def nibblerRun (mem : ByteMem) : Nibbler → List ValType → List TVal
  | _, [] => []
  | st, τ :: ts =>
    let r := st.getNext mem τ
    r.1 :: nibblerRun mem r.2 ts

/-- Pack a list of values in order into the buffer, returning the final
memory, the final cursor and the nibble codes in order. -/
def packSeq (mem : ByteMem) (pos : Nat) : List TVal → ByteMem × Nat × List Nat
  | [] => (mem, pos, [])
  | v :: vs =>
    let r := packOne mem pos v
    let rest := packSeq r.1 r.2.1 vs
    (rest.1, rest.2.1, r.2.2 :: rest.2.2)

/-- The packed nibble-code bytes for a code sequence: two codes per byte,
first code in the low nibble, an odd final code alone in its byte. -/
def nibbleBytesOfCodes : List Nat → List Nat
  | [] => []
  | [c] => [c]
  | c1 :: c2 :: rest => (c1 + 16 * c2) :: nibbleBytesOfCodes rest

/-- The `k`-th nibble of the stream whose packed bytes start at `base`:
even positions are low nibbles, odd positions high nibbles. -/
def nibbleAt (mem : ByteMem) (base k : Nat) : Nat :=
  if k % 2 = 0 then (twoNibblesAt mem (base + k / 2)).first
  else (twoNibblesAt mem (base + k / 2)).second

/-- View a code list as the `TwoNibbles` array `getSizeOfPackedValues`
iterates over. -/
def nibFun (codes : List Nat) : Nat → TwoNibbles :=
  fun i => ⟨codes.getD (2 * i) 0, codes.getD (2 * i + 1) 0⟩

/-- Total byte width described by a list of nibble codes. -/
def widthSum (codes : List Nat) : Nat := (codes.map nibbleWidth).sum

/-- Byte-pair width sum of the first `k` entries of a `TwoNibbles` array. -/
def pairSum (nb : Nat → TwoNibbles) : Nat → Nat
  | 0 => 0
  | k + 1 => pairSum nb k + (nibbleWidth (nb k).first + nibbleWidth (nb k).second)

/-- `b` is the least byte count (at least one) in which `x` fits unsigned. -/
def isLeastWidth (x b : Nat) : Prop :=
  1 ≤ b ∧ x < 2 ^ (8 * b) ∧ ∀ b₂, 1 ≤ b₂ → x < 2 ^ (8 * b₂) → b ≤ b₂

/-- Concrete mixed-type sequence used as a witness input. -/
def witnessVals : List TVal := [TVal.vU32 256, TVal.vI32 (-5), TVal.vU8 7]

theorem bytesOfNat_length (w v : Nat) : (bytesOfNat w v).length = w := by
  induction w generalizing v with
  | zero => rfl
  | succ w ih => simp [bytesOfNat, ih]

theorem bytesOfNat_getD (w v i : Nat) (hi : i < w) :
    (bytesOfNat w v).getD i 0 = v / 256 ^ i % 256 := by
  induction w generalizing v i with
  | zero => omega
  | succ w ih =>
    cases i with
    | zero => simp [bytesOfNat]
    | succ i =>
      have := ih (v / 256) i (by omega)
      simpa [bytesOfNat, Nat.div_div_eq_div_mul, pow_succ, mul_comm] using this

theorem writeBytes_frame (mem : ByteMem) (pos : Nat) (bs : List Nat) (a : Nat)
    (h : a < pos ∨ pos + bs.length ≤ a) : writeBytes mem pos bs a = mem a := by
  unfold writeBytes
  rw [if_neg]
  omega

theorem writeBytes_get (mem : ByteMem) (pos : Nat) (bs : List Nat) (i : Nat)
    (h : i < bs.length) : writeBytes mem pos bs (pos + i) = bs.getD i 0 := by
  unfold writeBytes
  rw [if_pos (by omega)]
  congr 1
  omega

theorem readLE_congr (m₁ m₂ : ByteMem) (pos k : Nat)
    (h : ∀ i, i < k → m₁ (pos + i) = m₂ (pos + i)) :
    readLE m₁ pos k = readLE m₂ pos k := by
  induction k generalizing pos with
  | zero => rfl
  | succ k ih =>
    unfold readLE
    rw [ih (pos + 1) fun i hi => by
      have := h (1 + i) (by omega)
      simpa [Nat.add_assoc] using this]
    have h0 := h 0 (by omega)
    simp only [Nat.add_zero] at h0
    rw [h0]

theorem readLE_spec (mem : ByteMem) (pos k v : Nat)
    (h : ∀ i, i < k → mem (pos + i) = v / 256 ^ i % 256) :
    readLE mem pos k = v % 256 ^ k := by
  induction k generalizing pos v with
  | zero => simp [readLE, Nat.mod_one]
  | succ k ih =>
    unfold readLE
    have h0 := h 0 (by omega)
    simp only [Nat.add_zero, pow_zero, Nat.div_one] at h0
    rw [h0, ih (pos + 1) (v / 256) fun i hi => by
      have := h (1 + i) (by omega)
      rw [Nat.add_comm 1 i] at this
      rw [show pos + 1 + i = pos + (1 + i) by omega, Nat.add_comm 1 i]
      rw [this, Nat.div_div_eq_div_mul]
      ring_nf]
    conv_rhs => rw [pow_succ, mul_comm, Nat.mod_mul]

theorem readLE_writeBytes (mem : ByteMem) (pos w v b : Nat) (hb : b ≤ w) :
    readLE (writeBytes mem pos (bytesOfNat w v)) pos b = v % 256 ^ b := by
  apply readLE_spec
  intro i hi
  rw [writeBytes_get _ _ _ i (by rw [bytesOfNat_length]; omega)]
  exact bytesOfNat_getD w v i (by omega)

theorem bytesOfNat_lt (w v : Nat) : ∀ x ∈ bytesOfNat w v, x < 256 := by
  induction w generalizing v with
  | zero => simp [bytesOfNat]
  | succ w ih =>
    intro x hx
    rcases List.mem_cons.mp hx with h | h
    · omega
    · exact ih (v / 256) x h

theorem pow256_eq (b : Nat) : (256 : Nat) ^ b = 2 ^ (8 * b) := by
  rw [show (256 : Nat) = 2 ^ 8 by norm_num, ← pow_mul]

theorem numBytesU_pos (v : Nat) : 1 ≤ numBytesU v := by
  unfold numBytesU
  split_ifs <;> omega

theorem numBytesU_le_eight (v : Nat) : numBytesU v ≤ 8 := by
  unfold numBytesU
  split_ifs <;> omega

theorem numBytesU_fits (v : Nat) (hv : v < 2 ^ 64) :
    v < 2 ^ (8 * numBytesU v) := by
  unfold numBytesU
  split_ifs <;> omega

theorem numBytesU_min (v b : Nat) (hb : 1 ≤ b) (h : v < 2 ^ (8 * b)) :
    numBytesU v ≤ b := by
  rcases Nat.lt_or_ge b 8 with hb8 | hb8
  · interval_cases b <;> (unfold numBytesU; split_ifs <;> omega)
  · exact le_trans (numBytesU_le_eight v) hb8

theorem numBytesU_isLeastWidth (v : Nat) (hv : v < 2 ^ 64) :
    isLeastWidth v (numBytesU v) :=
  ⟨numBytesU_pos v, numBytesU_fits v hv, fun _ h1 h2 => numBytesU_min v _ h1 h2⟩

theorem isLeastWidth_unique (x b₁ b₂ : Nat) (h₁ : isLeastWidth x b₁)
    (h₂ : isLeastWidth x b₂) : b₁ = b₂ :=
  le_antisymm (h₁.2.2 b₂ h₂.1 h₂.2.1) (h₂.2.2 b₁ h₁.1 h₁.2.1)

theorem land_fifteen (x : Nat) (h : x < 16) : Nat.land 15 x = x := by
  have h15 : ∀ y, y < 16 → Nat.land 15 y = y := by decide
  exact h15 x h

theorem unpackIntegral_le8 (w : Nat) (sgn : Bool) (mem : ByteMem) (pos c : Nat)
    (hc : c ≤ 8) :
    unpackIntegral w sgn mem pos c =
      (if sgn then castSigned w (sint64 (readLE mem pos c))
       else castUnsigned w (sint64 (readLE mem pos c)), pos + c) := by
  simp only [unpackIntegral, if_pos hc]

theorem unpackIntegral_gt8 (w : Nat) (sgn : Bool) (mem : ByteMem) (pos c : Nat)
    (hc8 : 8 < c) (hc16 : c < 16) :
    unpackIntegral w sgn mem pos c =
      (if sgn then castSigned w (neg64 (sint64 (readLE mem pos (c - 8))))
       else castUnsigned w (neg64 (sint64 (readLE mem pos (c - 8)))),
       pos + (c - 8)) := by
  simp only [unpackIntegral, if_neg (by omega : ¬c ≤ 8),
    if_neg (by omega : ¬c = 0), land_fifteen (c - 8) (by omega)]

theorem readLE_after_pack (size v : Nat) (mem mem₂ : ByteMem) (pos : Nat)
    (b : Nat) (hb : b ≤ size) (hvb : v < 2 ^ (8 * b))
    (hag : ∀ a, pos ≤ a → a < pos + b →
      mem₂ a = (packUnsigned size mem pos v).1 a) :
    readLE mem₂ pos b = v := by
  have hcongr : readLE mem₂ pos b =
      readLE (writeBytes mem pos (bytesOfNat size v)) pos b := by
    apply readLE_congr
    intro i hi
    exact hag (pos + i) (by omega) (by omega)
  rw [hcongr, readLE_writeBytes mem pos size v b hb, pow256_eq,
    Nat.mod_eq_of_lt hvb]

theorem castUnsigned_coe (w : Nat) (v : Nat) (h : v < 2 ^ (8 * w)) :
    castUnsigned w (v : Int) = (v : Int) := by
  unfold castUnsigned
  apply Int.emod_eq_of_lt (by positivity)
  exact_mod_cast h

theorem sint64_lt (n : Nat) (h : n < 2 ^ 63) : sint64 n = (n : Int) :=
  if_pos h

theorem castUnsigned_sint64 (w : Nat) (hw1 : 1 ≤ w) (hw8 : w ≤ 8) (v : Nat)
    (hv : v < 2 ^ (8 * w)) : castUnsigned w (sint64 v) = (v : Int) := by
  by_cases h63 : v < 2 ^ 63
  · rw [sint64_lt v h63, castUnsigned_coe w v hv]
  · have hw : w = 8 := by
      by_contra hne
      have h7 : (2 : Nat) ^ (8 * w) ≤ 2 ^ 56 :=
        Nat.pow_le_pow_right (by norm_num) (by omega)
      omega
    subst hw
    have hv64 : v < 2 ^ 64 := by simpa using hv
    simp only [sint64, if_neg h63, castUnsigned]
    norm_num
    omega

theorem unpack_pack_unsigned_agree (w : Nat) (hw1 : 1 ≤ w) (hw8 : w ≤ 8)
    (v : Nat) (hv : v < 2 ^ (8 * w)) (mem mem₂ : ByteMem) (pos : Nat)
    (hag : ∀ a, pos ≤ a → a < (packUnsigned w mem pos v).2.1 →
      mem₂ a = (packUnsigned w mem pos v).1 a) :
    unpackIntegral w false mem₂ pos (packUnsigned w mem pos v).2.2 =
      ((v : Int), (packUnsigned w mem pos v).2.1) := by
  have hv64 : v < 2 ^ 64 := by
    calc v < 2 ^ (8 * w) := hv
    _ ≤ 2 ^ 64 := Nat.pow_le_pow_right (by norm_num) (by omega)
  have hb := numBytesU_min v w hw1 hv
  have hread : readLE mem₂ pos (numBytesU v) = v :=
    readLE_after_pack w v mem mem₂ pos (numBytesU v) hb
      (numBytesU_fits v hv64) (fun a h1 h2 => hag a h1 (by
        simp only [packUnsigned]
        omega))
  show unpackIntegral w false mem₂ pos (numBytesU v) = (↑v, pos + numBytesU v)
  rw [unpackIntegral_le8 w false mem₂ pos (numBytesU v) (numBytesU_le_eight v),
    hread, if_neg Bool.false_ne_true, castUnsigned_sint64 w hw1 hw8 v hv]

theorem unpack_pack_i32_agree (v : Int) (hlo : -(2 ^ 31) ≤ v) (hhi : v < 2 ^ 31)
    (mem mem₂ : ByteMem) (pos : Nat)
    (hag : ∀ a, pos ≤ a → a < (packI32 mem pos v).2.1 →
      mem₂ a = (packI32 mem pos v).1 a) :
    unpackIntegral 4 true mem₂ pos (packI32 mem pos v).2.2 =
      (v, (packI32 mem pos v).2.1) := by
  by_cases hbr : v ≥ 0 ∨ v ≤ -(2 ^ 24)
  · simp only [packI32, if_pos hbr] at hag ⊢
    set u : Nat := (v % 2 ^ 32).toNat with hu
    have hub : u < 2 ^ (8 * 4) := by norm_num; omega
    have hb := numBytesU_min u 4 (by norm_num) hub
    have hread : readLE mem₂ pos (numBytesU u) = u :=
      readLE_after_pack 4 u mem mem₂ pos (numBytesU u) hb
        (numBytesU_fits u (by omega)) (fun a h1 h2 => hag a h1 (by
          simp only [packUnsigned]
          omega))
    show unpackIntegral 4 true mem₂ pos (numBytesU u) = (v, pos + numBytesU u)
    rw [unpackIntegral_le8 4 true mem₂ pos (numBytesU u) (numBytesU_le_eight u),
      hread, if_pos rfl]
    refine Prod.ext ?_ rfl
    simp only [sint64, castSigned]
    norm_num
    split_ifs <;> omega
  · simp only [packI32, if_neg hbr] at hag ⊢
    set m : Nat := ((-v) % 2 ^ 32).toNat with hm
    have hm24 : m < 2 ^ 24 := by omega
    have hb3 : numBytesU m ≤ 3 :=
      numBytesU_min m 3 (by norm_num) (by norm_num; omega)
    have hb1 := numBytesU_pos m
    have hread : readLE mem₂ pos (numBytesU m) = m :=
      readLE_after_pack 4 m mem mem₂ pos (numBytesU m) (by omega)
        (numBytesU_fits m (by omega)) (fun a h1 h2 => hag a h1 (by
          simp only [packUnsigned]
          omega))
    show unpackIntegral 4 true mem₂ pos (8 + numBytesU m) =
      (v, pos + numBytesU m)
    rw [unpackIntegral_gt8 4 true mem₂ pos (8 + numBytesU m) (by omega)
      (by omega), Nat.add_sub_cancel_left, hread, if_pos rfl]
    refine Prod.ext ?_ rfl
    rw [sint64_lt m (by omega)]
    simp only [neg64, castSigned]
    norm_num
    split_ifs <;> omega

theorem unpack_pack_i64_agree (v : Int) (hlo : -(2 ^ 63) ≤ v) (hhi : v < 2 ^ 63)
    (mem mem₂ : ByteMem) (pos : Nat)
    (hag : ∀ a, pos ≤ a → a < (packI64 mem pos v).2.1 →
      mem₂ a = (packI64 mem pos v).1 a) :
    unpackIntegral 8 true mem₂ pos (packI64 mem pos v).2.2 =
      (v, (packI64 mem pos v).2.1) := by
  by_cases hbr : v ≥ 0 ∨ v ≤ -(2 ^ 56)
  · simp only [packI64, if_pos hbr] at hag ⊢
    set u : Nat := (v % 2 ^ 64).toNat with hu
    have hub : u < 2 ^ (8 * 8) := by norm_num; omega
    have hb := numBytesU_min u 8 (by norm_num) hub
    have hread : readLE mem₂ pos (numBytesU u) = u :=
      readLE_after_pack 8 u mem mem₂ pos (numBytesU u) hb
        (numBytesU_fits u (by omega)) (fun a h1 h2 => hag a h1 (by
          simp only [packUnsigned]
          omega))
    show unpackIntegral 8 true mem₂ pos (numBytesU u) = (v, pos + numBytesU u)
    rw [unpackIntegral_le8 8 true mem₂ pos (numBytesU u) (numBytesU_le_eight u),
      hread, if_pos rfl]
    refine Prod.ext ?_ rfl
    simp only [sint64, castSigned]
    norm_num
    split_ifs <;> omega
  · simp only [packI64, if_neg hbr] at hag ⊢
    set m : Nat := ((-v) % 2 ^ 64).toNat with hm
    have hm56 : m < 2 ^ 56 := by omega
    have hb7 : numBytesU m ≤ 7 :=
      numBytesU_min m 7 (by norm_num) (by norm_num; omega)
    have hb1 := numBytesU_pos m
    have hread : readLE mem₂ pos (numBytesU m) = m :=
      readLE_after_pack 8 m mem mem₂ pos (numBytesU m) (by omega)
        (numBytesU_fits m (by omega)) (fun a h1 h2 => hag a h1 (by
          simp only [packUnsigned]
          omega))
    show unpackIntegral 8 true mem₂ pos (8 + numBytesU m) =
      (v, pos + numBytesU m)
    rw [unpackIntegral_gt8 8 true mem₂ pos (8 + numBytesU m) (by omega)
      (by omega), Nat.add_sub_cancel_left, hread, if_pos rfl]
    refine Prod.ext ?_ rfl
    rw [sint64_lt m (by omega)]
    simp only [neg64, castSigned]
    norm_num
    split_ifs <;> omega

theorem packLL_eq_packI64 : packLL = packI64 := rfl

theorem unpack_pack_floating_agree (size : Nat) (hs : size = 4 ∨ size = 8)
    (bits : Nat) (hb : bits < 2 ^ (8 * size)) (mem mem₂ : ByteMem) (pos : Nat)
    (hag : ∀ a, pos ≤ a → a < (packFloating size mem pos bits).2.1 →
      mem₂ a = (packFloating size mem pos bits).1 a) :
    unpackFloating mem₂ pos (packFloating size mem pos bits).2.2 =
      (bits, (packFloating size mem pos bits).2.1) := by
  have hread : readLE mem₂ pos size = bits := by
    have hcongr : readLE mem₂ pos size =
        readLE (writeBytes mem pos (bytesOfNat size bits)) pos size := by
      apply readLE_congr
      intro i hi
      exact hag (pos + i) (by omega) (by simp only [packFloating]; omega)
    rw [hcongr, readLE_writeBytes mem pos size bits size le_rfl, pow256_eq,
      Nat.mod_eq_of_lt hb]
  rcases hs with h | h <;> subst h
  · show unpackFloating mem₂ pos 4 = (bits, pos + 4)
    unfold unpackFloating
    rw [if_pos rfl, hread]
  · show unpackFloating mem₂ pos 8 = (bits, pos + 8)
    unfold unpackFloating
    rw [if_neg (by norm_num)]
    show (readLE mem₂ pos 8, pos + 8) = (bits, pos + 8)
    rw [hread]

theorem packOne_unpackOne_agree (v : TVal) (hv : TValValid v) (mem : ByteMem)
    (pos : Nat) (mem₂ : ByteMem)
    (hag : ∀ a, pos ≤ a → a < (packOne mem pos v).2.1 →
      mem₂ a = (packOne mem pos v).1 a) :
    unpackOne (typeOf v) mem₂ pos (packOne mem pos v).2.2 =
      (v, (packOne mem pos v).2.1) := by
  cases v with
  | vU8 v =>
    have hv8 : v < 2 ^ (8 * 1) := by simpa using hv
    simp only [packOne, typeOf, unpackOne,
      unpack_pack_unsigned_agree 1 (by norm_num) (by norm_num) v hv8 mem mem₂ pos hag,
      Int.toNat_natCast]
  | vU16 v =>
    have hv16 : v < 2 ^ (8 * 2) := by simpa using hv
    simp only [packOne, typeOf, unpackOne,
      unpack_pack_unsigned_agree 2 (by norm_num) (by norm_num) v hv16 mem mem₂ pos hag,
      Int.toNat_natCast]
  | vU32 v =>
    have hv32 : v < 2 ^ (8 * 4) := by simpa using hv
    simp only [packOne, typeOf, unpackOne,
      unpack_pack_unsigned_agree 4 (by norm_num) (by norm_num) v hv32 mem mem₂ pos hag,
      Int.toNat_natCast]
  | vU64 v =>
    have hv64 : v < 2 ^ (8 * 8) := by simpa using hv
    simp only [packOne, typeOf, unpackOne,
      unpack_pack_unsigned_agree 8 (by norm_num) (by norm_num) v hv64 mem mem₂ pos hag,
      Int.toNat_natCast]
  | vPtr v =>
    have hv64 : v < 2 ^ (8 * 8) := by simpa using hv
    simp only [packOne, typeOf, unpackOne, packPointer, unpackPointer,
      unpack_pack_unsigned_agree 8 (by norm_num) (by norm_num) v hv64 mem mem₂ pos hag,
      Int.toNat_natCast]
  | vI32 v =>
    simp only [packOne, typeOf, unpackOne,
      unpack_pack_i32_agree v hv.1 hv.2 mem mem₂ pos hag]
  | vI64 v =>
    simp only [packOne, typeOf, unpackOne,
      unpack_pack_i64_agree v hv.1 hv.2 mem mem₂ pos hag]
  | vLL v =>
    simp only [packOne, typeOf, unpackOne, packLL_eq_packI64] at hag ⊢
    simp only [unpack_pack_i64_agree v hv.1 hv.2 mem mem₂ pos hag]
  | vF32 bits =>
    have hb : bits < 2 ^ (8 * 4) := by simpa using hv
    simp only [packOne, typeOf, unpackOne,
      unpack_pack_floating_agree 4 (Or.inl rfl) bits hb mem mem₂ pos hag]
  | vF64 bits =>
    have hb : bits < 2 ^ (8 * 8) := by simpa using hv
    simp only [packOne, typeOf, unpackOne,
      unpack_pack_floating_agree 8 (Or.inr rfl) bits hb mem mem₂ pos hag]

theorem nibbleWidth_of_le8 (c : Nat) (h1 : 1 ≤ c) (h8 : c ≤ 8) :
    nibbleWidth c = c := by
  unfold nibbleWidth
  rw [if_neg (by omega), if_pos h8]

theorem nibbleWidth_of_gt8 (c : Nat) (h : 8 < c) : nibbleWidth c = c - 8 := by
  unfold nibbleWidth
  rw [if_neg (by omega), if_neg (by omega)]

theorem packOne_code_advance (v : TVal) (hv : TValValid v) (mem : ByteMem)
    (pos : Nat) :
    1 ≤ (packOne mem pos v).2.2 ∧ (packOne mem pos v).2.2 ≤ 15 ∧
      (packOne mem pos v).2.1 = pos + nibbleWidth (packOne mem pos v).2.2 := by
  have hwid : ∀ val : Nat,
      1 ≤ numBytesU val ∧ numBytesU val ≤ 15 ∧
        pos + numBytesU val = pos + nibbleWidth (numBytesU val) := by
    intro val
    have h1 := numBytesU_pos val
    have h8 := numBytesU_le_eight val
    exact ⟨h1, by omega, by rw [nibbleWidth_of_le8 (numBytesU val) h1 h8]⟩
  cases v with
  | vI32 v =>
    simp only [packOne, packI32]
    split_ifs with hbr
    · exact hwid _
    · have hm24 : ((-v) % 2 ^ 32).toNat < 2 ^ 24 := by
        simp only [TValValid] at hv
        omega
      have hb3 : numBytesU ((-v) % 2 ^ 32).toNat ≤ 3 :=
        numBytesU_min _ 3 (by norm_num) (by norm_num; omega)
      have hb1 := numBytesU_pos ((-v) % 2 ^ 32).toNat
      dsimp only [packUnsigned]
      refine ⟨by omega, by omega, ?_⟩
      rw [nibbleWidth_of_gt8 _ (by omega)]
      omega
  | vI64 v =>
    simp only [packOne, packI64]
    split_ifs with hbr
    · exact hwid _
    · have hm56 : ((-v) % 2 ^ 64).toNat < 2 ^ 56 := by
        simp only [TValValid] at hv
        omega
      have hb7 : numBytesU ((-v) % 2 ^ 64).toNat ≤ 7 :=
        numBytesU_min _ 7 (by norm_num) (by norm_num; omega)
      have hb1 := numBytesU_pos ((-v) % 2 ^ 64).toNat
      dsimp only [packUnsigned]
      refine ⟨by omega, by omega, ?_⟩
      rw [nibbleWidth_of_gt8 _ (by omega)]
      omega
  | vLL v =>
    simp only [packOne, packLL_eq_packI64, packI64]
    split_ifs with hbr
    · exact hwid _
    · have hm56 : ((-v) % 2 ^ 64).toNat < 2 ^ 56 := by
        simp only [TValValid] at hv
        omega
      have hb7 : numBytesU ((-v) % 2 ^ 64).toNat ≤ 7 :=
        numBytesU_min _ 7 (by norm_num) (by norm_num; omega)
      have hb1 := numBytesU_pos ((-v) % 2 ^ 64).toNat
      dsimp only [packUnsigned]
      refine ⟨by omega, by omega, ?_⟩
      rw [nibbleWidth_of_gt8 _ (by omega)]
      omega
  | vF32 bits =>
    simp only [packOne, packFloating]
    exact ⟨by omega, by omega, by rw [nibbleWidth_of_le8 4 (by omega) (by omega)]⟩
  | vF64 bits =>
    simp only [packOne, packFloating]
    exact ⟨by omega, by omega, by rw [nibbleWidth_of_le8 8 (by omega) (by omega)]⟩
  | vU8 v => simp only [packOne, packUnsigned]; exact hwid v
  | vU16 v => simp only [packOne, packUnsigned]; exact hwid v
  | vU32 v => simp only [packOne, packUnsigned]; exact hwid v
  | vU64 v => simp only [packOne, packUnsigned]; exact hwid v
  | vPtr v => simp only [packOne, packPointer, packUnsigned]; exact hwid v

theorem packOne_pos_le (v : TVal) (mem : ByteMem) (pos : Nat) :
    pos ≤ (packOne mem pos v).2.1 := by
  cases v <;>
    simp only [packOne, packUnsigned, packI32, packI64, packLL, packPointer,
      packFloating] <;>
    (try split_ifs) <;> (try dsimp only) <;> omega

theorem packOne_frame (v : TVal) (mem : ByteMem) (pos a : Nat) (ha : a < pos) :
    (packOne mem pos v).1 a = mem a := by
  cases v <;>
    simp only [packOne, packUnsigned, packI32, packI64, packLL, packPointer,
      packFloating] <;>
    (try split_ifs) <;>
    exact writeBytes_frame mem pos _ a (Or.inl ha)

theorem packSeq_cons_fst (mem : ByteMem) (pos : Nat) (v : TVal) (vs : List TVal) :
    (packSeq mem pos (v :: vs)).1 =
      (packSeq (packOne mem pos v).1 (packOne mem pos v).2.1 vs).1 := rfl

theorem packSeq_cons_snd (mem : ByteMem) (pos : Nat) (v : TVal) (vs : List TVal) :
    (packSeq mem pos (v :: vs)).2.1 =
      (packSeq (packOne mem pos v).1 (packOne mem pos v).2.1 vs).2.1 := rfl

theorem packSeq_cons_codes (mem : ByteMem) (pos : Nat) (v : TVal)
    (vs : List TVal) :
    (packSeq mem pos (v :: vs)).2.2 =
      (packOne mem pos v).2.2 ::
        (packSeq (packOne mem pos v).1 (packOne mem pos v).2.1 vs).2.2 := rfl

theorem packSeq_pos_le (vs : List TVal) : ∀ (mem : ByteMem) (pos : Nat),
    pos ≤ (packSeq mem pos vs).2.1 := by
  induction vs with
  | nil => intro mem pos; exact le_rfl
  | cons v vs ih =>
    intro mem pos
    rw [packSeq_cons_snd]
    exact le_trans (packOne_pos_le v mem pos)
      (ih (packOne mem pos v).1 (packOne mem pos v).2.1)

theorem packSeq_frame (vs : List TVal) : ∀ (mem : ByteMem) (pos a : Nat),
    a < pos → (packSeq mem pos vs).1 a = mem a := by
  induction vs with
  | nil => intro mem pos a _; rfl
  | cons v vs ih =>
    intro mem pos a ha
    rw [packSeq_cons_fst,
      ih (packOne mem pos v).1 (packOne mem pos v).2.1 a
        (lt_of_lt_of_le ha (packOne_pos_le v mem pos))]
    exact packOne_frame v mem pos a ha

theorem widthSum_nil : widthSum [] = 0 := rfl

theorem widthSum_cons (c : Nat) (cs : List Nat) :
    widthSum (c :: cs) = nibbleWidth c + widthSum cs := by
  simp [widthSum]

theorem packSeq_codes_spec (vs : List TVal) (hv : ∀ x ∈ vs, TValValid x) :
    ∀ (mem : ByteMem) (pos : Nat),
      (packSeq mem pos vs).2.2.length = vs.length ∧
      (∀ c ∈ (packSeq mem pos vs).2.2, 1 ≤ c ∧ c ≤ 15) ∧
      (packSeq mem pos vs).2.1 = pos + widthSum (packSeq mem pos vs).2.2 := by
  induction vs with
  | nil =>
    intro mem pos
    refine ⟨rfl, ?_, ?_⟩
    · intro c hc
      exact absurd hc (List.not_mem_nil c)
    · show pos = pos + widthSum []
      rw [widthSum_nil, Nat.add_zero]
  | cons v vs ih =>
    intro mem pos
    have hvv : TValValid v := hv v (by simp)
    have hvs : ∀ x ∈ vs, TValValid x := fun x hx => hv x (by simp [hx])
    obtain ⟨hc1, hc15, hadv⟩ := packOne_code_advance v hvv mem pos
    obtain ⟨hlen, hcs, hsum⟩ :=
      ih hvs (packOne mem pos v).1 (packOne mem pos v).2.1
    refine ⟨?_, ?_, ?_⟩
    · rw [packSeq_cons_codes]
      simp [hlen]
    · rw [packSeq_cons_codes]
      intro c hc
      rcases List.mem_cons.mp hc with h | h
      · subst h; exact ⟨hc1, hc15⟩
      · exact hcs c h
    · rw [packSeq_cons_snd, packSeq_cons_codes, widthSum_cons, hsum, hadv]
      ring

theorem not_decide_mod_two (k : Nat) :
    (!decide (k % 2 = 0)) = decide ((k + 1) % 2 = 0) := by
  rcases Nat.mod_two_eq_zero_or_one k with h | h <;> simp [h, Nat.add_mod]

theorem getNext_eq (st : Nibbler) (mem : ByteMem) (τ : ValType) :
    st.getNext mem τ =
      ((unpackOne τ mem st.currPackedValue
          (if st.onFirstNibble then (twoNibblesAt mem st.nibblePosition).first
           else (twoNibblesAt mem st.nibblePosition).second)).1,
       { st with
          nibblePosition := if !st.onFirstNibble then st.nibblePosition + 1
                            else st.nibblePosition
          onFirstNibble := !st.onFirstNibble
          currPackedValue := (unpackOne τ mem st.currPackedValue
            (if st.onFirstNibble then (twoNibblesAt mem st.nibblePosition).first
             else (twoNibblesAt mem st.nibblePosition).second)).2 }) := rfl

theorem nibblerRun_packSeq (vals : List TVal) :
    ∀ (mem0 : ByteMem) (pos : Nat)
      (_ : ∀ x ∈ vals, TValValid x) (mem₂ : ByteMem)
      (_ : ∀ a, pos ≤ a → a < (packSeq mem0 pos vals).2.1 →
        mem₂ a = (packSeq mem0 pos vals).1 a)
      (base k : Nat)
      (_ : ∀ j, j < vals.length →
        nibbleAt mem₂ base (k + j) = (packSeq mem0 pos vals).2.2.getD j 0)
      (st : Nibbler) (_ : st.currPackedValue = pos)
      (_ : st.onFirstNibble = decide (k % 2 = 0))
      (_ : st.nibblePosition = base + k / 2),
    nibblerRun mem₂ st (vals.map typeOf) = vals := by
  induction vals with
  | nil => intro mem0 pos _ mem₂ _ base k _ st _ _ _; rfl
  | cons v vs ih =>
    intro mem0 pos hvalid mem₂ hagree base k hnib st hcurr hfirst hpos
    have hvv : TValValid v := hvalid v (by simp)
    have hvs : ∀ x ∈ vs, TValValid x := fun x hx => hvalid x (by simp [hx])
    have hple : (packOne mem0 pos v).2.1 ≤ (packSeq mem0 pos (v :: vs)).2.1 := by
      rw [packSeq_cons_snd]
      exact packSeq_pos_le vs _ _
    have hagree1 : ∀ a, pos ≤ a → a < (packOne mem0 pos v).2.1 →
        mem₂ a = (packOne mem0 pos v).1 a := by
      intro a h1 h2
      rw [hagree a h1 (lt_of_lt_of_le h2 hple), packSeq_cons_fst]
      exact packSeq_frame vs _ _ a h2
    have hun := packOne_unpackOne_agree v hvv mem0 pos mem₂ hagree1
    have hc0 : nibbleAt mem₂ base k = (packOne mem0 pos v).2.2 := by
      have h := hnib 0 (by simp)
      rw [packSeq_cons_codes] at h
      simpa using h
    have hnibeq : (if st.onFirstNibble then (twoNibblesAt mem₂ st.nibblePosition).first
        else (twoNibblesAt mem₂ st.nibblePosition).second) =
        (packOne mem0 pos v).2.2 := by
      rw [hfirst, hpos, ← hc0]
      unfold nibbleAt
      by_cases hk : k % 2 = 0 <;> simp [hk]
    have hget : st.getNext mem₂ (typeOf v) = (v,
        { st with
          nibblePosition := if !st.onFirstNibble then st.nibblePosition + 1
                            else st.nibblePosition
          onFirstNibble := !st.onFirstNibble
          currPackedValue := (packOne mem0 pos v).2.1 }) := by
      rw [getNext_eq, hnibeq, hcurr, hun]
    show (st.getNext mem₂ (typeOf v)).1 ::
      nibblerRun mem₂ (st.getNext mem₂ (typeOf v)).2 (vs.map typeOf) = v :: vs
    rw [hget]
    refine congrArg₂ _ rfl ?_
    refine ih (packOne mem0 pos v).1 (packOne mem0 pos v).2.1 hvs mem₂ ?_
      base (k + 1) ?_ _ rfl ?_ ?_
    · intro a h1 h2
      rw [hagree a (le_trans (packOne_pos_le v mem0 pos) h1)
        (by rw [packSeq_cons_snd]; exact h2), packSeq_cons_fst]
    · intro j hj
      have h := hnib (j + 1) (by simp; omega)
      rw [packSeq_cons_codes] at h
      rw [show k + 1 + j = k + (j + 1) by omega]
      simpa using h
    · show (!st.onFirstNibble) = decide ((k + 1) % 2 = 0)
      rw [hfirst, not_decide_mod_two]
    · show (if !st.onFirstNibble then st.nibblePosition + 1
        else st.nibblePosition) = base + (k + 1) / 2
      rw [hfirst, hpos]
      rcases Nat.mod_two_eq_zero_or_one k with h | h <;> simp [h] <;> omega

theorem pairSum_zero (nb : Nat → TwoNibbles) : pairSum nb 0 = 0 := rfl

theorem pairSum_succ (nb : Nat → TwoNibbles) (k : Nat) :
    pairSum nb (k + 1) =
      pairSum nb k +
        (nibbleWidth (nb k).first + nibbleWidth (nb k).second) := rfl

theorem getSizeLoop_succ (nb : Nat → TwoNibbles) (k : Nat) :
    getSizeLoop nb (k + 1) = stepPair (getSizeLoop nb k) (nb k) := rfl

theorem stepPair_spec (size : Nat) (nb : TwoNibbles)
    (h1 : nb.first < 16) (h2 : nb.second < 16) :
    stepPair size nb =
      (size + (nibbleWidth nb.first + nibbleWidth nb.second)) % 2 ^ 32 := by
  unfold stepPair nibbleWidth
  dsimp only
  split_ifs <;> omega

theorem getSizeLoop_spec (nb : Nat → TwoNibbles) (k : Nat)
    (h : ∀ i, i < k → (nb i).first < 16 ∧ (nb i).second < 16) :
    getSizeLoop nb k = pairSum nb k % 2 ^ 32 := by
  induction k with
  | zero => rfl
  | succ k ih =>
    have hk := h k (by omega)
    rw [getSizeLoop_succ, ih fun i hi => h i (by omega),
      stepPair_spec _ _ hk.1 hk.2, pairSum_succ]
    omega

theorem getSizeOfPackedValues_spec (nb : Nat → TwoNibbles) (n : Nat)
    (h : ∀ i, i ≤ n / 2 → (nb i).first < 16 ∧ (nb i).second < 16) :
    getSizeOfPackedValues nb n =
      (pairSum nb (n / 2) +
        (if n % 2 = 1 then nibbleWidth (nb (n / 2)).first else 0)) % 2 ^ 32 := by
  have hloop := getSizeLoop_spec nb (n / 2) fun i hi => h i (by omega)
  have hfst := (h (n / 2) le_rfl).1
  unfold getSizeOfPackedValues
  dsimp only
  rw [hloop]
  by_cases hodd : n % 2 = 1
  · rw [if_pos hodd, if_pos hodd]
    unfold nibbleWidth
    split_ifs <;> omega
  · rw [if_neg hodd, if_neg hodd]
    omega

theorem pairSum_congr (nb₁ nb₂ : Nat → TwoNibbles) (k : Nat)
    (h : ∀ i, i < k → nb₁ i = nb₂ i) : pairSum nb₁ k = pairSum nb₂ k := by
  induction k with
  | zero => rfl
  | succ k ih =>
    unfold pairSum
    rw [ih fun i hi => h i (by omega), h k (by omega)]

theorem pairSum_shift (nb : Nat → TwoNibbles) (k : Nat) :
    pairSum nb (k + 1) =
      (nibbleWidth (nb 0).first + nibbleWidth (nb 0).second) +
        pairSum (fun i => nb (i + 1)) k := by
  induction k with
  | zero =>
    rw [pairSum_succ, pairSum_zero, pairSum_zero]
    omega
  | succ k ih =>
    show pairSum nb (k + 1) +
      (nibbleWidth (nb (k + 1)).first + nibbleWidth (nb (k + 1)).second) = _
    rw [ih]
    show _ = _ + (pairSum (fun i => nb (i + 1)) k +
      (nibbleWidth (nb (k + 1)).first + nibbleWidth (nb (k + 1)).second))
    omega

theorem nibFun_zero (c₁ c₂ : Nat) (rest : List Nat) :
    nibFun (c₁ :: c₂ :: rest) 0 = ⟨c₁, c₂⟩ := rfl

theorem nibFun_succ (c₁ c₂ : Nat) (rest : List Nat) (i : Nat) :
    nibFun (c₁ :: c₂ :: rest) (i + 1) = nibFun rest i := by
  unfold nibFun
  rw [show 2 * (i + 1) = 2 * i + 1 + 1 by ring]
  simp [List.getD_cons_succ]

theorem pairSum_nibFun : ∀ (codes : List Nat),
    pairSum (nibFun codes) (codes.length / 2) +
      (if codes.length % 2 = 1 then
        nibbleWidth (nibFun codes (codes.length / 2)).first else 0) =
      widthSum codes
  | [] => rfl
  | [c] => by
    have hl : ([c] : List Nat).length = 1 := rfl
    rw [hl]
    norm_num
    rw [pairSum_zero, widthSum_cons, widthSum_nil]
    show 0 + nibbleWidth c = nibbleWidth c + 0
    omega
  | c₁ :: c₂ :: rest => by
    have ih := pairSum_nibFun rest
    have hlen : (c₁ :: c₂ :: rest).length = rest.length + 2 := by simp
    rw [hlen, show (rest.length + 2) / 2 = rest.length / 2 + 1 by omega,
      show (rest.length + 2) % 2 = rest.length % 2 by omega,
      pairSum_shift, pairSum_congr _ (nibFun rest) (rest.length / 2)
        (fun i _ => nibFun_succ c₁ c₂ rest i),
      nibFun_zero, nibFun_succ, widthSum_cons, widthSum_cons]
    show nibbleWidth c₁ + nibbleWidth c₂ + _ + _ = _
    omega

theorem getD_lt_sixteen : ∀ (l : List Nat), (∀ c ∈ l, c < 16) → ∀ j,
    l.getD j 0 < 16
  | [], _, j => by simp [List.getD]
  | c :: r, h, 0 => by simpa using h c (by simp)
  | c :: r, h, j + 1 => by
    simpa using getD_lt_sixteen r (fun x hx => h x (by simp [hx])) j

theorem nibFun_lt (codes : List Nat) (h : ∀ c ∈ codes, c < 16) (i : Nat) :
    (nibFun codes i).first < 16 ∧ (nibFun codes i).second < 16 :=
  ⟨getD_lt_sixteen codes h (2 * i), getD_lt_sixteen codes h (2 * i + 1)⟩

theorem getSize_widthSum (codes : List Nat) (h : ∀ c ∈ codes, c < 16) :
    getSizeOfPackedValues (nibFun codes) codes.length =
      widthSum codes % 2 ^ 32 := by
  rw [getSizeOfPackedValues_spec (nibFun codes) codes.length
    (fun i _ => nibFun_lt codes h i), pairSum_nibFun codes]

theorem nibbleBytesOfCodes_cons (c₁ c₂ : Nat) (rest : List Nat) :
    nibbleBytesOfCodes (c₁ :: c₂ :: rest) =
      (c₁ + 16 * c₂) :: nibbleBytesOfCodes rest := rfl

theorem nibbleBytesOfCodes_length : ∀ (codes : List Nat),
    (nibbleBytesOfCodes codes).length = (codes.length + 1) / 2
  | [] => rfl
  | [_] => by
    show 1 = (1 + 1) / 2
    norm_num
  | c₁ :: c₂ :: rest => by
    show (nibbleBytesOfCodes rest).length + 1 = (rest.length + 1 + 1 + 1) / 2
    rw [nibbleBytesOfCodes_length rest]
    omega

theorem nibbleBytes_extract : ∀ (codes : List Nat), (∀ c ∈ codes, c < 16) →
    ∀ j, j < codes.length →
    (if j % 2 = 0 then (nibbleBytesOfCodes codes).getD (j / 2) 0 % 16
     else (nibbleBytesOfCodes codes).getD (j / 2) 0 / 16 % 16) =
      codes.getD j 0
  | [], _, j, hj => by simp at hj
  | [c], h, j, hj => by
    have hj0 : j = 0 := by
      simp at hj
      omega
    subst hj0
    have hc := h c (by simp)
    rw [if_pos (by norm_num)]
    show c % 16 = c
    omega
  | c₁ :: c₂ :: rest, h, 0, _ => by
    have hc1 := h c₁ (by simp)
    rw [if_pos (by norm_num), nibbleBytesOfCodes_cons]
    show (c₁ + 16 * c₂) % 16 = c₁
    omega
  | c₁ :: c₂ :: rest, h, 1, _ => by
    have hc1 := h c₁ (by simp)
    have hc2 := h c₂ (by simp)
    rw [if_neg (by norm_num), nibbleBytesOfCodes_cons]
    show (c₁ + 16 * c₂) / 16 % 16 = c₂
    omega
  | c₁ :: c₂ :: rest, h, j + 2, hj => by
    have ih := nibbleBytes_extract rest (fun x hx => h x (by simp [hx])) j
      (by simp at hj ⊢; omega)
    rw [nibbleBytesOfCodes_cons, show (j + 2) % 2 = j % 2 by omega,
      show (j + 2) / 2 = j / 2 + 1 by omega]
    simp only [List.getD_cons_succ]
    exact ih

theorem nibbleAt_writeBytes (memF : ByteMem) (base : Nat) (codes : List Nat)
    (h : ∀ c ∈ codes, c < 16) (j : Nat) (hj : j < codes.length) :
    nibbleAt (writeBytes memF base (nibbleBytesOfCodes codes)) base j =
      codes.getD j 0 := by
  have hlen := nibbleBytesOfCodes_length codes
  have hget : writeBytes memF base (nibbleBytesOfCodes codes) (base + j / 2) =
      (nibbleBytesOfCodes codes).getD (j / 2) 0 :=
    writeBytes_get memF base _ (j / 2) (by omega)
  have hex := nibbleBytes_extract codes h j hj
  unfold nibbleAt twoNibblesAt
  dsimp only
  by_cases hp : j % 2 = 0
  · rw [if_pos hp, hget]
    rw [if_pos hp] at hex
    exact hex
  · rw [if_neg hp, hget]
    rw [if_neg hp] at hex
    exact hex

/-- C1: for every supported type (unsigned 8/16/32/64-bit integers,
`int32_t`, `int64_t`, `long long`, pointers, `float`, `double`) and every
representable value `v`, packing `v` and then unpacking at the same
position with the nibble code that pack returned and the matching type
yields exactly `v`, sign included, and the decode cursor lands where pack
left the encode cursor. -/
theorem c1_pack_unpack_roundtrip (v : TVal) (hv : TValValid v) (mem : ByteMem)
    (pos : Nat) :
    unpackOne (typeOf v) (packOne mem pos v).1 pos (packOne mem pos v).2.2 =
      (v, (packOne mem pos v).2.1) :=
  packOne_unpackOne_agree v hv mem pos (packOne mem pos v).1
    (fun _ _ _ => rfl)

/-- Witness for C1 at the extreme value `INT64_MIN`, which exercises the
full-width direct path. -/
theorem c1_pack_unpack_roundtrip_witness :
    TValValid (TVal.vI64 (-(2 ^ 63))) ∧
    unpackOne (typeOf (TVal.vI64 (-(2 ^ 63))))
        (packOne zeroMem 0 (TVal.vI64 (-(2 ^ 63)))).1 0
        (packOne zeroMem 0 (TVal.vI64 (-(2 ^ 63)))).2.2 =
      (TVal.vI64 (-(2 ^ 63)), (packOne zeroMem 0 (TVal.vI64 (-(2 ^ 63)))).2.1) :=
  ⟨by decide, c1_pack_unpack_roundtrip _ (by decide) zeroMem 0⟩

/-- C5: a sequence of values of possibly differing supported types packed in
order into one value buffer, laid out behind the packed nibble-code bytes
(`⌈n/2⌉` bytes, low nibble first), is returned in exactly the original
order by a Nibbler when `getNext` is called once per value with each
value's original type. -/
theorem c5_nibbler_sequence (vals : List TVal)
    (hvalid : ∀ x ∈ vals, TValValid x) (mem0 : ByteMem) (base : Nat) :
    nibblerRun
      (writeBytes (packSeq mem0 (base + (vals.length + 1) / 2) vals).1 base
        (nibbleBytesOfCodes
          (packSeq mem0 (base + (vals.length + 1) / 2) vals).2.2))
      (Nibbler.init
        (writeBytes (packSeq mem0 (base + (vals.length + 1) / 2) vals).1 base
          (nibbleBytesOfCodes
            (packSeq mem0 (base + (vals.length + 1) / 2) vals).2.2))
        base vals.length)
      (vals.map typeOf) = vals := by
  obtain ⟨hlen, hbound, hadv⟩ :=
    packSeq_codes_spec vals hvalid mem0 (base + (vals.length + 1) / 2)
  have hb16 : ∀ c ∈ (packSeq mem0 (base + (vals.length + 1) / 2) vals).2.2,
      c < 16 := fun c hc => by
    have := hbound c hc
    omega
  have hbl := nibbleBytesOfCodes_length
    (packSeq mem0 (base + (vals.length + 1) / 2) vals).2.2
  refine nibblerRun_packSeq vals mem0 (base + (vals.length + 1) / 2) hvalid _
    ?_ base 0 ?_ _ ?_ ?_ ?_
  · intro a h1 h2
    exact writeBytes_frame _ base _ a (Or.inr (by omega))
  · intro j hj
    rw [Nat.zero_add]
    exact nibbleAt_writeBytes _ base _ hb16 j (by omega)
  · rfl
  · rfl
  · rfl

/-- Witness for C5 at a concrete mixed-type sequence (a `uint32_t`, a
negative `int32_t` and a `uint8_t`). -/
theorem c5_nibbler_sequence_witness :
    (∀ x ∈ witnessVals, TValValid x) ∧
    nibblerRun
      (writeBytes
        (packSeq zeroMem (0 + (witnessVals.length + 1) / 2) witnessVals).1 0
        (nibbleBytesOfCodes
          (packSeq zeroMem (0 + (witnessVals.length + 1) / 2) witnessVals).2.2))
      (Nibbler.init
        (writeBytes
          (packSeq zeroMem (0 + (witnessVals.length + 1) / 2) witnessVals).1 0
          (nibbleBytesOfCodes
            (packSeq zeroMem
              (0 + (witnessVals.length + 1) / 2) witnessVals).2.2))
        0 witnessVals.length)
      (witnessVals.map typeOf) = witnessVals :=
  ⟨by decide, c5_nibbler_sequence witnessVals (by decide) zeroMem 0⟩

/-- Counterexample to C2 as stated: the `int32_t` value `-2^24` is negative,
but pack sends it through the unsigned bit-pattern path and returns nibble
code 4, not a code greater than 8; the value still decodes exactly. -/
theorem c2_fullwidth_negative_counterexample :
    (-(2 ^ 24) : Int) < 0 ∧
    (packI32 zeroMem 0 (-(2 ^ 24))).2.2 = 4 ∧
    ¬8 < (packI32 zeroMem 0 (-(2 ^ 24))).2.2 ∧
    (unpackIntegral 4 true (packI32 zeroMem 0 (-(2 ^ 24))).1 0
      (packI32 zeroMem 0 (-(2 ^ 24))).2.2).1 = -(2 ^ 24) := by decide

/-- C2 (amended): for a negative signed value the nibble code is greater
than 8 exactly when the value lies strictly above
`-2^(8(sizeof(T) - 1))`; decoding reproduces the exact negative value in
either case (through the negated path above that bound, through the
full-width bit-pattern path at or below it). -/
theorem c2_negative_sign_roundtrip :
    (∀ (v : Int) (mem : ByteMem) (pos : Nat), -(2 ^ 31) ≤ v → v < 0 →
      (8 < (packI32 mem pos v).2.2 ↔ -(2 ^ 24) < v) ∧
      unpackIntegral 4 true (packI32 mem pos v).1 pos
        (packI32 mem pos v).2.2 = (v, (packI32 mem pos v).2.1)) ∧
    (∀ (v : Int) (mem : ByteMem) (pos : Nat), -(2 ^ 63) ≤ v → v < 0 →
      (8 < (packI64 mem pos v).2.2 ↔ -(2 ^ 56) < v) ∧
      unpackIntegral 8 true (packI64 mem pos v).1 pos
        (packI64 mem pos v).2.2 = (v, (packI64 mem pos v).2.1)) ∧
    (∀ (v : Int) (mem : ByteMem) (pos : Nat), -(2 ^ 63) ≤ v → v < 0 →
      (8 < (packLL mem pos v).2.2 ↔ -(2 ^ 56) < v) ∧
      unpackIntegral 8 true (packLL mem pos v).1 pos
        (packLL mem pos v).2.2 = (v, (packLL mem pos v).2.1)) := by
  refine ⟨?_, ?_, ?_⟩
  · intro v mem pos hlo hneg
    refine ⟨?_, unpack_pack_i32_agree v hlo (by omega) mem _ pos
      (fun _ _ _ => rfl)⟩
    by_cases hbr : v ≥ 0 ∨ v ≤ -(2 ^ 24)
    · simp only [packI32, if_pos hbr]
      dsimp only [packUnsigned]
      have h8 := numBytesU_le_eight (v % 2 ^ 32).toNat
      omega
    · simp only [packI32, if_neg hbr]
      dsimp only [packUnsigned]
      have h1 := numBytesU_pos ((-v) % 2 ^ 32).toNat
      omega
  · intro v mem pos hlo hneg
    refine ⟨?_, unpack_pack_i64_agree v hlo (by omega) mem _ pos
      (fun _ _ _ => rfl)⟩
    by_cases hbr : v ≥ 0 ∨ v ≤ -(2 ^ 56)
    · simp only [packI64, if_pos hbr]
      dsimp only [packUnsigned]
      have h8 := numBytesU_le_eight (v % 2 ^ 64).toNat
      omega
    · simp only [packI64, if_neg hbr]
      dsimp only [packUnsigned]
      have h1 := numBytesU_pos ((-v) % 2 ^ 64).toNat
      omega
  · intro v mem pos hlo hneg
    rw [packLL_eq_packI64]
    refine ⟨?_, unpack_pack_i64_agree v hlo (by omega) mem _ pos
      (fun _ _ _ => rfl)⟩
    by_cases hbr : v ≥ 0 ∨ v ≤ -(2 ^ 56)
    · simp only [packI64, if_pos hbr]
      dsimp only [packUnsigned]
      have h8 := numBytesU_le_eight (v % 2 ^ 64).toNat
      omega
    · simp only [packI64, if_neg hbr]
      dsimp only [packUnsigned]
      have h1 := numBytesU_pos ((-v) % 2 ^ 64).toNat
      omega

/-- Witness for the amended C2 at the `int32_t` value `-5`. -/
theorem c2_negative_sign_roundtrip_witness :
    -(2 ^ 31) ≤ (-5 : Int) ∧ (-5 : Int) < 0 ∧
    ((8 < (packI32 zeroMem 0 (-5)).2.2 ↔ -(2 ^ 24) < (-5 : Int)) ∧
      unpackIntegral 4 true (packI32 zeroMem 0 (-5)).1 0
        (packI32 zeroMem 0 (-5)).2.2 = (-5, (packI32 zeroMem 0 (-5)).2.1)) :=
  ⟨by decide, by decide,
    c2_negative_sign_roundtrip.1 (-5) zeroMem 0 (by decide) (by decide)⟩

/-- C3 (evidence of the code bug): with nibble code 0 the integral `unpack`
advances the cursor by 0 bytes and returns 0 — the `packResult <= 8`
branch catches code 0, so the 16-byte selection in the negation branch is
dead code — while the floating-point `unpack` does consume 16 bytes, and
`getSizeOfPackedValues` likewise attributes 16 bytes to code 0. -/
theorem c3_code0_advance :
    (unpackIntegral 8 true zeroMem 0 0).2 = 0 ∧
    (unpackIntegral 8 true zeroMem 0 0).1 = 0 ∧
    (unpackIntegral 4 false zeroMem 0 0).2 = 0 ∧
    (unpackPointer zeroMem 0 0).2 = 0 ∧
    (unpackFloating zeroMem 0 0).2 = 16 ∧
    getSizeOfPackedValues (nibFun [0]) 1 = 16 := by decide

/-- C4 (evidence of the code bug): the byte widths `getSizeOfPackedValues`
attributes to nibble codes agree with the integral `unpack` cursor advance
for every code 1 through 15, but diverge at code 0, where the size
calculator counts 16 bytes and `unpack` consumes 0. -/
theorem c4_size_decoder_divergence :
    (∀ c, c < 16 → 1 ≤ c →
      getSizeOfPackedValues (nibFun [c]) 1 =
        (unpackIntegral 8 true zeroMem 0 c).2 ∧
      getSizeOfPackedValues (nibFun [c]) 1 =
        (unpackIntegral 4 false zeroMem 0 c).2 ∧
      getSizeOfPackedValues (nibFun [c]) 1 = (unpackPointer zeroMem 0 c).2) ∧
    getSizeOfPackedValues (nibFun [0]) 1 = 16 ∧
    (unpackIntegral 8 true zeroMem 0 0).2 = 0 ∧
    (unpackPointer zeroMem 0 0).2 = 0 := by decide

/-- C6: the unsigned pack returns, as its nibble code, the least byte count
(at least one, at most `sizeof(T)`) in which the value fits unsigned; for
the signed packs, the encoded byte width is the smaller of the least widths
of the direct bit-pattern representation and of the negated magnitude. -/
theorem c6_width_minimality :
    (∀ (size : Nat), 1 ≤ size → size ≤ 8 → ∀ (v : Nat), v < 2 ^ (8 * size) →
      ∀ (mem : ByteMem) (pos : Nat),
        (packUnsigned size mem pos v).2.2 ≤ size ∧
        isLeastWidth v (packUnsigned size mem pos v).2.2) ∧
    (∀ (v : Int), -(2 ^ 31) ≤ v → v < 2 ^ 31 → ∀ (mem : ByteMem) (pos : Nat),
      ∃ bd bn, isLeastWidth (v % 2 ^ 32).toNat bd ∧ isLeastWidth v.natAbs bn ∧
        nibbleWidth (packI32 mem pos v).2.2 = min bd bn) ∧
    (∀ (v : Int), -(2 ^ 63) ≤ v → v < 2 ^ 63 → ∀ (mem : ByteMem) (pos : Nat),
      ∃ bd bn, isLeastWidth (v % 2 ^ 64).toNat bd ∧ isLeastWidth v.natAbs bn ∧
        nibbleWidth (packI64 mem pos v).2.2 = min bd bn) ∧
    (∀ (v : Int), -(2 ^ 63) ≤ v → v < 2 ^ 63 → ∀ (mem : ByteMem) (pos : Nat),
      ∃ bd bn, isLeastWidth (v % 2 ^ 64).toNat bd ∧ isLeastWidth v.natAbs bn ∧
        nibbleWidth (packLL mem pos v).2.2 = min bd bn) := by
  refine ⟨?_, ?_, ?_, ?_⟩
  · intro size hs1 hs8 v hv mem pos
    dsimp only [packUnsigned]
    have hv64 : v < 2 ^ 64 := by
      calc v < 2 ^ (8 * size) := hv
      _ ≤ 2 ^ 64 := Nat.pow_le_pow_right (by norm_num) (by omega)
    exact ⟨numBytesU_min v size hs1 hv, numBytesU_isLeastWidth v hv64⟩
  · intro v hlo hhi mem pos
    refine ⟨numBytesU (v % 2 ^ 32).toNat, numBytesU v.natAbs,
      numBytesU_isLeastWidth _ (by omega), numBytesU_isLeastWidth _ (by omega),
      ?_⟩
    by_cases hbr : v ≥ 0 ∨ v ≤ -(2 ^ 24)
    · simp only [packI32, if_pos hbr]
      dsimp only [packUnsigned]
      rw [nibbleWidth_of_le8 _ (numBytesU_pos _) (numBytesU_le_eight _)]
      rcases hbr with hge | hle
      · have habs : (v % 2 ^ 32).toNat = v.natAbs := by omega
        rw [habs]
        omega
      · have hu4 : numBytesU (v % 2 ^ 32).toNat = 4 := by
          unfold numBytesU
          split_ifs <;> omega
        have hn4 : numBytesU v.natAbs = 4 := by
          unfold numBytesU
          split_ifs <;> omega
        omega
    · simp only [packI32, if_neg hbr]
      dsimp only [packUnsigned]
      rw [nibbleWidth_of_gt8 _ (by have := numBytesU_pos ((-v) % 2 ^ 32).toNat; omega)]
      have habs : ((-v) % 2 ^ 32).toNat = v.natAbs := by omega
      have hu4 : numBytesU (v % 2 ^ 32).toNat = 4 := by
        unfold numBytesU
        split_ifs <;> omega
      have hb3 : numBytesU v.natAbs ≤ 3 :=
        numBytesU_min _ 3 (by norm_num) (by norm_num; omega)
      rw [habs]
      omega
  · intro v hlo hhi mem pos
    refine ⟨numBytesU (v % 2 ^ 64).toNat, numBytesU v.natAbs,
      numBytesU_isLeastWidth _ (by omega), numBytesU_isLeastWidth _ (by omega),
      ?_⟩
    by_cases hbr : v ≥ 0 ∨ v ≤ -(2 ^ 56)
    · simp only [packI64, if_pos hbr]
      dsimp only [packUnsigned]
      rw [nibbleWidth_of_le8 _ (numBytesU_pos _) (numBytesU_le_eight _)]
      rcases hbr with hge | hle
      · have habs : (v % 2 ^ 64).toNat = v.natAbs := by omega
        rw [habs]
        omega
      · have hu8 : numBytesU (v % 2 ^ 64).toNat = 8 := by
          unfold numBytesU
          split_ifs <;> omega
        have hn8 : numBytesU v.natAbs = 8 := by
          unfold numBytesU
          split_ifs <;> omega
        omega
    · simp only [packI64, if_neg hbr]
      dsimp only [packUnsigned]
      rw [nibbleWidth_of_gt8 _ (by have := numBytesU_pos ((-v) % 2 ^ 64).toNat; omega)]
      have habs : ((-v) % 2 ^ 64).toNat = v.natAbs := by omega
      have hu8 : numBytesU (v % 2 ^ 64).toNat = 8 := by
        unfold numBytesU
        split_ifs <;> omega
      have hb7 : numBytesU v.natAbs ≤ 7 :=
        numBytesU_min _ 7 (by norm_num) (by norm_num; omega)
      rw [habs]
      omega
  · intro v hlo hhi mem pos
    rw [packLL_eq_packI64]
    refine ⟨numBytesU (v % 2 ^ 64).toNat, numBytesU v.natAbs,
      numBytesU_isLeastWidth _ (by omega), numBytesU_isLeastWidth _ (by omega),
      ?_⟩
    by_cases hbr : v ≥ 0 ∨ v ≤ -(2 ^ 56)
    · simp only [packI64, if_pos hbr]
      dsimp only [packUnsigned]
      rw [nibbleWidth_of_le8 _ (numBytesU_pos _) (numBytesU_le_eight _)]
      rcases hbr with hge | hle
      · have habs : (v % 2 ^ 64).toNat = v.natAbs := by omega
        rw [habs]
        omega
      · have hu8 : numBytesU (v % 2 ^ 64).toNat = 8 := by
          unfold numBytesU
          split_ifs <;> omega
        have hn8 : numBytesU v.natAbs = 8 := by
          unfold numBytesU
          split_ifs <;> omega
        omega
    · simp only [packI64, if_neg hbr]
      dsimp only [packUnsigned]
      rw [nibbleWidth_of_gt8 _ (by have := numBytesU_pos ((-v) % 2 ^ 64).toNat; omega)]
      have habs : ((-v) % 2 ^ 64).toNat = v.natAbs := by omega
      have hu8 : numBytesU (v % 2 ^ 64).toNat = 8 := by
        unfold numBytesU
        split_ifs <;> omega
      have hb7 : numBytesU v.natAbs ≤ 7 :=
        numBytesU_min _ 7 (by norm_num) (by norm_num; omega)
      rw [habs]
      omega

/-- Witness for C6: the `uint32_t` value 300 needs exactly 2 bytes, and the
`int32_t` value `-5` is encoded through the 1-byte negated magnitude. -/
theorem c6_width_minimality_witness :
    (1 ≤ 4 ∧ 4 ≤ 8 ∧ (300 : Nat) < 2 ^ (8 * 4) ∧
      (packUnsigned 4 zeroMem 0 300).2.2 ≤ 4 ∧
      isLeastWidth 300 (packUnsigned 4 zeroMem 0 300).2.2) ∧
    (-(2 ^ 31) ≤ (-5 : Int) ∧ (-5 : Int) < 2 ^ 31 ∧
      ∃ bd bn, isLeastWidth ((-5 : Int) % 2 ^ 32).toNat bd ∧
        isLeastWidth (-5 : Int).natAbs bn ∧
        nibbleWidth (packI32 zeroMem 0 (-5)).2.2 = min bd bn) := by
  have h1 := c6_width_minimality.1 4 (by norm_num) (by norm_num) 300
    (by norm_num) zeroMem 0
  have h2 := c6_width_minimality.2.1 (-5) (by norm_num) (by norm_num) zeroMem 0
  exact ⟨⟨by norm_num, by norm_num, by norm_num, h1.1, h1.2⟩,
    by norm_num, by norm_num, h2⟩

theorem widthSum_replicate (n x : Nat) :
    widthSum (List.replicate n x) = n * nibbleWidth x := by
  unfold widthSum
  rw [List.map_replicate]
  simp [List.sum_replicate, smul_eq_mul]

theorem packSeq_replicate_u64 : ∀ (k : Nat) (mem : ByteMem) (pos : Nat),
    (packSeq mem pos (List.replicate k (TVal.vU64 (2 ^ 56)))).2.1 =
      pos + 8 * k ∧
    (packSeq mem pos (List.replicate k (TVal.vU64 (2 ^ 56)))).2.2 =
      List.replicate k 8 := by
  intro k
  induction k with
  | zero => intro mem pos; exact ⟨rfl, rfl⟩
  | succ k ih =>
    intro mem pos
    have hcode : (packOne mem pos (TVal.vU64 (2 ^ 56))).2.2 = 8 := by
      show numBytesU (2 ^ 56) = 8
      decide
    have hadv : (packOne mem pos (TVal.vU64 (2 ^ 56))).2.1 = pos + 8 := by
      show pos + numBytesU (2 ^ 56) = pos + 8
      rw [show numBytesU (2 ^ 56) = 8 by decide]
    rw [List.replicate_succ]
    constructor
    · rw [packSeq_cons_snd, (ih _ _).1, hadv]
      ring
    · rw [packSeq_cons_codes, (ih _ _).2, hcode, List.replicate_succ]

/-- Counterexample to C7 as stated: `2^29` pack calls on the `uint64_t`
value `2^56` each advance the value cursor by 8 bytes, `2^32` in total,
but `getSizeOfPackedValues` over the produced run of `2^29` codes returns
0 because its `uint32_t` size counter wraps around. -/
theorem c7_uint32_overflow_counterexample :
    (∀ x ∈ List.replicate (2 ^ 29) (TVal.vU64 (2 ^ 56)), TValValid x) ∧
    (packSeq zeroMem 0 (List.replicate (2 ^ 29) (TVal.vU64 (2 ^ 56)))).2.1 - 0 =
      2 ^ 32 ∧
    getSizeOfPackedValues
      (nibFun
        (packSeq zeroMem 0 (List.replicate (2 ^ 29) (TVal.vU64 (2 ^ 56)))).2.2)
      (List.replicate (2 ^ 29) (TVal.vU64 (2 ^ 56))).length = 0 ∧
    (0 : Nat) ≠ 2 ^ 32 := by
  obtain ⟨hadv, hcodes⟩ := packSeq_replicate_u64 (2 ^ 29) zeroMem 0
  refine ⟨?_, ?_, ?_, by norm_num⟩
  · intro x hx
    rw [List.eq_of_mem_replicate hx]
    show (2 : Nat) ^ 56 < 2 ^ 64
    norm_num
  · rw [hadv]
    norm_num
  · have h1 : getSizeOfPackedValues (nibFun (List.replicate (2 ^ 29) (8 : Nat)))
        (List.replicate (2 ^ 29) (8 : Nat)).length =
          widthSum (List.replicate (2 ^ 29) (8 : Nat)) % 2 ^ 32 :=
      getSize_widthSum _ (fun c hc => by
        rw [List.eq_of_mem_replicate hc]
        norm_num)
    have h2 : widthSum (List.replicate (2 ^ 29) (8 : Nat)) % 2 ^ 32 = 0 := by
      rw [widthSum_replicate, nibbleWidth_of_le8 8 (by norm_num) (by norm_num)]
      norm_num
    have h3 : (List.replicate (2 ^ 29) (8 : Nat)).length = 2 ^ 29 :=
      List.length_replicate _ _
    have h4 : (List.replicate (2 ^ 29) (TVal.vU64 (2 ^ 56))).length = 2 ^ 29 :=
      List.length_replicate _ _
    rw [h3] at h1
    have hstep : getSizeOfPackedValues
        (nibFun
          (packSeq zeroMem 0
            (List.replicate (2 ^ 29) (TVal.vU64 (2 ^ 56)))).2.2)
        (List.replicate (2 ^ 29) (TVal.vU64 (2 ^ 56))).length =
        getSizeOfPackedValues (nibFun (List.replicate (2 ^ 29) (8 : Nat)))
          (2 ^ 29) := by
      rw [hcodes, h4]
    rw [hstep, h1, h2]

/-- C7 (amended): for every run of nibble codes produced by actual pack
calls, `getSizeOfPackedValues` over those codes equals the total number of
bytes the pack calls advanced the value cursor, reduced modulo `2^32`
(the size counter is a `uint32_t`); in particular the two quantities are
equal whenever the total stays below `2^32`, which holds for every
realistic run. -/
theorem c7_size_consistency_mod (vals : List TVal)
    (hv : ∀ x ∈ vals, TValValid x) (mem : ByteMem) (pos : Nat) :
    getSizeOfPackedValues (nibFun (packSeq mem pos vals).2.2) vals.length =
      ((packSeq mem pos vals).2.1 - pos) % 2 ^ 32 := by
  obtain ⟨hlen, hbound, hadv⟩ := packSeq_codes_spec vals hv mem pos
  have h16 : ∀ c ∈ (packSeq mem pos vals).2.2, c < 16 := fun c hc => by
    have := hbound c hc
    omega
  rw [← hlen, getSize_widthSum _ h16, hadv]
  congr 1
  omega

/-- Witness for the amended C7 at a concrete mixed-type sequence. -/
theorem c7_size_consistency_mod_witness :
    (∀ x ∈ witnessVals, TValValid x) ∧
    getSizeOfPackedValues (nibFun (packSeq zeroMem 0 witnessVals).2.2)
        witnessVals.length =
      ((packSeq zeroMem 0 witnessVals).2.1 - 0) % 2 ^ 32 :=
  ⟨by decide, c7_size_consistency_mod witnessVals (by decide) zeroMem 0⟩

/-- Counterexample to C8 as stated: packing the `uint32_t` value 5 returns
nibble code 1, yet the buffer byte at offset 1 past the cursor — beyond the
one coded byte — is overwritten (with 0), because the source memcpys all
`sizeof(T)` bytes and only advances the cursor by the coded count. -/
theorem c8_scratch_bytes_counterexample :
    (packUnsigned 4 (fun a => if a = 1 then 255 else 0) 0 5).2.2 = 1 ∧
    ((fun a => if a = 1 then 255 else 0 : ByteMem) 1 = 255) ∧
    (packUnsigned 4 (fun a => if a = 1 then 255 else 0) 0 5).1 1 = 0 := by
  decide

/-- C8 (amended): the unsigned pack writes exactly the `sizeof(T)` bytes of
the value at the cursor — the low `b` coded bytes of `v` followed by zero
bytes, since the value's high bytes are zero — advances the cursor by the
returned code `b`, and leaves every byte before the cursor or at offset
`sizeof(T)` or more past it unchanged. -/
theorem c8_frame_effect (size : Nat) (hs1 : 1 ≤ size) (hs8 : size ≤ 8)
    (v : Nat) (hv : v < 2 ^ (8 * size)) (mem : ByteMem) (pos : Nat) :
    (packUnsigned size mem pos v).2.1 =
      pos + (packUnsigned size mem pos v).2.2 ∧
    (∀ i, i < size →
      (packUnsigned size mem pos v).1 (pos + i) = v / 256 ^ i % 256) ∧
    (∀ i, (packUnsigned size mem pos v).2.2 ≤ i → i < size →
      (packUnsigned size mem pos v).1 (pos + i) = 0) ∧
    (∀ a, a < pos ∨ pos + size ≤ a →
      (packUnsigned size mem pos v).1 a = mem a) := by
  have hv64 : v < 2 ^ 64 := by
    calc v < 2 ^ (8 * size) := hv
    _ ≤ 2 ^ 64 := Nat.pow_le_pow_right (by norm_num) (by omega)
  refine ⟨rfl, ?_, ?_, ?_⟩
  · intro i hi
    show writeBytes mem pos (bytesOfNat size v) (pos + i) = _
    rw [writeBytes_get _ _ _ i (by rw [bytesOfNat_length]; omega)]
    exact bytesOfNat_getD size v i hi
  · intro i hle hi
    have hc : numBytesU v ≤ i := hle
    have hfits := numBytesU_fits v hv64
    have hsmall : v < 256 ^ i := by
      rw [pow256_eq]
      calc v < 2 ^ (8 * numBytesU v) := hfits
      _ ≤ 2 ^ (8 * i) := Nat.pow_le_pow_right (by norm_num) (by omega)
    show writeBytes mem pos (bytesOfNat size v) (pos + i) = 0
    rw [writeBytes_get _ _ _ i (by rw [bytesOfNat_length]; omega),
      bytesOfNat_getD size v i hi, Nat.div_eq_of_lt hsmall, Nat.zero_mod]
  · intro a ha
    exact writeBytes_frame mem pos _ a (by rw [bytesOfNat_length]; exact ha)

/-- Witness for the amended C8 at the `uint32_t` value 5 (coded in one
byte; offsets 1-3 hold the zero scratch bytes, offset 4 and beyond are
untouched). -/
theorem c8_frame_effect_witness :
    1 ≤ 4 ∧ 4 ≤ 8 ∧ (5 : Nat) < 2 ^ (8 * 4) ∧
    ((packUnsigned 4 zeroMem 0 5).2.1 = 0 + (packUnsigned 4 zeroMem 0 5).2.2 ∧
      (∀ i, i < 4 →
        (packUnsigned 4 zeroMem 0 5).1 (0 + i) = 5 / 256 ^ i % 256) ∧
      (∀ i, (packUnsigned 4 zeroMem 0 5).2.2 ≤ i → i < 4 →
        (packUnsigned 4 zeroMem 0 5).1 (0 + i) = 0) ∧
      (∀ a, a < 0 ∨ 0 + 4 ≤ a →
        (packUnsigned 4 zeroMem 0 5).1 a = zeroMem a)) :=
  ⟨by norm_num, by norm_num, by norm_num,
    c8_frame_effect 4 (by norm_num) (by norm_num) 5 (by norm_num) zeroMem 0⟩

/-- C9: every pack call on a representable value returns a nibble code in
[1, 15] — never 0, so the code always fits a 4-bit nibble; the unsigned
and pointer paths return codes in [1, 8], the floating-point paths return
exactly 4 (`float`) or 8 (`double`), and the signed paths stay at most 15
because the negated path is only taken when the magnitude fits in at most
`sizeof(T) - 1` bytes. -/
theorem c9_code_range (v : TVal) (hv : TValValid v) (mem : ByteMem)
    (pos : Nat) :
    1 ≤ (packOne mem pos v).2.2 ∧ (packOne mem pos v).2.2 ≤ 15 ∧
    ((typeOf v = .u8 ∨ typeOf v = .u16 ∨ typeOf v = .u32 ∨ typeOf v = .u64 ∨
        typeOf v = .ptr) → (packOne mem pos v).2.2 ≤ 8) ∧
    (typeOf v = .f32 → (packOne mem pos v).2.2 = 4) ∧
    (typeOf v = .f64 → (packOne mem pos v).2.2 = 8) := by
  obtain ⟨h1, h15, _⟩ := packOne_code_advance v hv mem pos
  refine ⟨h1, h15, ?_, ?_, ?_⟩
  · intro hτ
    cases v with
    | vU8 x => exact numBytesU_le_eight x
    | vU16 x => exact numBytesU_le_eight x
    | vU32 x => exact numBytesU_le_eight x
    | vU64 x => exact numBytesU_le_eight x
    | vPtr x => exact numBytesU_le_eight x
    | vI32 x => simp [typeOf] at hτ
    | vI64 x => simp [typeOf] at hτ
    | vLL x => simp [typeOf] at hτ
    | vF32 x => simp [typeOf] at hτ
    | vF64 x => simp [typeOf] at hτ
  · intro hτ
    cases v with
    | vF32 x => rfl
    | vU8 x => simp [typeOf] at hτ
    | vU16 x => simp [typeOf] at hτ
    | vU32 x => simp [typeOf] at hτ
    | vU64 x => simp [typeOf] at hτ
    | vPtr x => simp [typeOf] at hτ
    | vI32 x => simp [typeOf] at hτ
    | vI64 x => simp [typeOf] at hτ
    | vLL x => simp [typeOf] at hτ
    | vF64 x => simp [typeOf] at hτ
  · intro hτ
    cases v with
    | vF64 x => rfl
    | vU8 x => simp [typeOf] at hτ
    | vU16 x => simp [typeOf] at hτ
    | vU32 x => simp [typeOf] at hτ
    | vU64 x => simp [typeOf] at hτ
    | vPtr x => simp [typeOf] at hτ
    | vI32 x => simp [typeOf] at hτ
    | vI64 x => simp [typeOf] at hτ
    | vLL x => simp [typeOf] at hτ
    | vF32 x => simp [typeOf] at hτ

/-- Witness for C9 at the `int64_t` value -300, which takes the negated
path with code 10. -/
theorem c9_code_range_witness :
    TValValid (TVal.vI64 (-300)) ∧
    (1 ≤ (packOne zeroMem 0 (TVal.vI64 (-300))).2.2 ∧
      (packOne zeroMem 0 (TVal.vI64 (-300))).2.2 ≤ 15 ∧
      ((typeOf (TVal.vI64 (-300)) = .u8 ∨ typeOf (TVal.vI64 (-300)) = .u16 ∨
          typeOf (TVal.vI64 (-300)) = .u32 ∨
          typeOf (TVal.vI64 (-300)) = .u64 ∨
          typeOf (TVal.vI64 (-300)) = .ptr) →
        (packOne zeroMem 0 (TVal.vI64 (-300))).2.2 ≤ 8) ∧
      (typeOf (TVal.vI64 (-300)) = .f32 →
        (packOne zeroMem 0 (TVal.vI64 (-300))).2.2 = 4) ∧
      (typeOf (TVal.vI64 (-300)) = .f64 →
        (packOne zeroMem 0 (TVal.vI64 (-300))).2.2 = 8)) :=
  ⟨by decide, c9_code_range (TVal.vI64 (-300)) (by decide) zeroMem 0⟩

/-- C10: the negating branch of each signed pack is reached exactly when
`-2^(8(sizeof(T)-1)) < val < 0` (observable as a returned code above 8);
on that branch the negated magnitude lies strictly between 0 and
`2^(8(sizeof(T)-1))`, well inside the type's range, so the negation never
overflows and is never applied to the most negative value — which is
encoded through the non-negated bit-pattern path with code `sizeof(T)`. -/
theorem c10_negation_guard :
    (∀ (v : Int) (mem : ByteMem) (pos : Nat), -(2 ^ 31) ≤ v → v < 2 ^ 31 →
      (8 < (packI32 mem pos v).2.2 ↔ -(2 ^ 24) < v ∧ v < 0) ∧
      (8 < (packI32 mem pos v).2.2 → 0 < -v ∧ -v < 2 ^ 24)) ∧
    (∀ (v : Int) (mem : ByteMem) (pos : Nat), -(2 ^ 63) ≤ v → v < 2 ^ 63 →
      (8 < (packI64 mem pos v).2.2 ↔ -(2 ^ 56) < v ∧ v < 0) ∧
      (8 < (packI64 mem pos v).2.2 → 0 < -v ∧ -v < 2 ^ 56)) ∧
    (∀ (v : Int) (mem : ByteMem) (pos : Nat), -(2 ^ 63) ≤ v → v < 2 ^ 63 →
      (8 < (packLL mem pos v).2.2 ↔ -(2 ^ 56) < v ∧ v < 0) ∧
      (8 < (packLL mem pos v).2.2 → 0 < -v ∧ -v < 2 ^ 56)) ∧
    (packI32 zeroMem 0 (-(2 ^ 31))).2.2 = 4 ∧
    (packI64 zeroMem 0 (-(2 ^ 63))).2.2 = 8 ∧
    (packLL zeroMem 0 (-(2 ^ 63))).2.2 = 8 := by
  refine ⟨?_, ?_, ?_, by decide, by decide, by decide⟩
  · intro v mem pos hlo hhi
    by_cases hbr : v ≥ 0 ∨ v ≤ -(2 ^ 24)
    · simp only [packI32, if_pos hbr]
      dsimp only [packUnsigned]
      have h8 := numBytesU_le_eight (v % 2 ^ 32).toNat
      constructor
      · omega
      · omega
    · simp only [packI32, if_neg hbr]
      dsimp only [packUnsigned]
      have h1 := numBytesU_pos ((-v) % 2 ^ 32).toNat
      constructor
      · omega
      · omega
  · intro v mem pos hlo hhi
    by_cases hbr : v ≥ 0 ∨ v ≤ -(2 ^ 56)
    · simp only [packI64, if_pos hbr]
      dsimp only [packUnsigned]
      have h8 := numBytesU_le_eight (v % 2 ^ 64).toNat
      constructor
      · omega
      · omega
    · simp only [packI64, if_neg hbr]
      dsimp only [packUnsigned]
      have h1 := numBytesU_pos ((-v) % 2 ^ 64).toNat
      constructor
      · omega
      · omega
  · intro v mem pos hlo hhi
    rw [packLL_eq_packI64]
    by_cases hbr : v ≥ 0 ∨ v ≤ -(2 ^ 56)
    · simp only [packI64, if_pos hbr]
      dsimp only [packUnsigned]
      have h8 := numBytesU_le_eight (v % 2 ^ 64).toNat
      constructor
      · omega
      · omega
    · simp only [packI64, if_neg hbr]
      dsimp only [packUnsigned]
      have h1 := numBytesU_pos ((-v) % 2 ^ 64).toNat
      constructor
      · omega
      · omega

/-- Witness for C10 at the `int32_t` value -5, which takes the negating
branch. -/
theorem c10_negation_guard_witness :
    -(2 ^ 31) ≤ (-5 : Int) ∧ (-5 : Int) < 2 ^ 31 ∧
    ((8 < (packI32 zeroMem 0 (-5)).2.2 ↔
        -(2 ^ 24) < (-5 : Int) ∧ (-5 : Int) < 0) ∧
      (8 < (packI32 zeroMem 0 (-5)).2.2 →
        0 < -(-5 : Int) ∧ -(-5 : Int) < 2 ^ 24)) :=
  ⟨by decide, by decide,
    c10_negation_guard.1 (-5) zeroMem 0 (by decide) (by decide)⟩

end BufferUtils
